import Mathlib

/-!
Verification of the fragment-substring study tool (`fss.py`).

The program is embedded shallowly: Python strings are modelled as lists of
characters (`Str`), the `defaultdict(int)` frequency mapping as an
association list in insertion order, the tkinter widgets that carry session
state as fields of a `Game` structure, and the missed-prompt log file as its
raw character content (`Option Str`, `none` meaning the file does not
exist).  Randomness (`random.choice`, `random.shuffle`) is made explicit: a
choice is an arbitrary natural number index, a shuffle an arbitrary
function that theorems constrain to be a permutation where needed.
-/

namespace FSS

/-- Python strings are sequences of characters; we model them as `List Char`. -/
abbrev Str := List Char

/-- Coerce a Lean string literal to the `Str` model. -/
def str (s : String) : Str := s.data

/-- Model of Python `str.lower()` (ASCII range, which covers the corpus). -/
def pyLower (s : Str) : Str := s.map Char.toLower

/-- Model of Python `str.strip()`: remove leading and trailing whitespace. -/
def pyStrip (s : Str) : Str :=
  ((s.dropWhile Char.isWhitespace).reverse.dropWhile Char.isWhitespace).reverse

/-- Model of the Python substring test `f in w` for strings. -/
def isSubstr (f w : Str) : Bool :=
  (List.range (w.length + 1)).any fun i => (w.drop i).take f.length == f

/-- Value of a nonempty all-digit string, as read left to right. -/
def digitsVal (s : Str) : Option Nat :=
  if s ≠ [] ∧ s.all (fun c => c.isDigit) then
    some (s.foldl (fun a c => a * 10 + (c.toNat - '0'.toNat)) 0)
  else none

/-- Model of Python `int(s)` on ASCII decimal literals: strip whitespace,
optional sign, digits; `none` models the `ValueError` (digit-group
underscores and non-ASCII digits are not modelled). -/
def parsePyInt (s : Str) : Option Int :=
  match pyStrip s with
  | '-' :: ds => (digitsVal ds).map (fun n => -(n : Int))
  | '+' :: ds => (digitsVal ds).map (fun n => (n : Int))
  | ds => (digitsVal ds).map (fun n => (n : Int))

/-- Decimal digits of a natural number, with explicit fuel so that the
recursion is structural and kernel-reducible. -/
def decDigitsAux : Nat → Nat → Str
  | 0, _ => []
  | fuel + 1, n =>
    if n < 10 then [Nat.digitChar n]
    else decDigitsAux fuel (n / 10) ++ [Nat.digitChar (n % 10)]

/-- Decimal digits of a natural number, as Python `str` renders it. -/
def decDigits (n : Nat) : Str := decDigitsAux (n + 1) n

/-- Model of Python `str(i)` for an integer. -/
def intToStr (i : Int) : Str :=
  if i < 0 then '-' :: decDigits (-i).toNat else decDigits i.toNat

/-- Model of `file.readlines()`: split content into lines, each keeping its
terminating newline; the accumulator holds the current line reversed. -/
def readlinesAux : Str → Str → List Str
  | acc, [] => if acc = [] then [] else [acc.reverse]
  | acc, c :: rest =>
    if c = '\n' then (acc.reverse ++ ['\n']) :: readlinesAux [] rest
    else readlinesAux (c :: acc) rest

/-- Model of `file.readlines()` on whole file content. -/
def pyReadlines (s : Str) : List Str := readlinesAux [] s

/-- Model of Python `s.split(sep)` for a one-character separator: cut at
every occurrence of the separator, keeping empty pieces. -/
def pySplitAux (sep : Char) : Str → Str → List Str
  | acc, [] => [acc.reverse]
  | acc, c :: rest =>
    if c = sep then acc.reverse :: pySplitAux sep [] rest
    else pySplitAux sep (c :: acc) rest

/-- Model of Python `s.split(sep)`. -/
def pySplit (sep : Char) (s : Str) : List Str := pySplitAux sep [] s

/-- Model of `f.seek(0)` followed by `f.writelines`: the new content is
written over the old one from the start, without truncation, so any old
bytes beyond the new length survive. -/
def overlay (newC oldC : Str) : Str := newC ++ oldC.drop newC.length

/-- `generate_substrings(word)`: the set of 3-letter windows of `word`
without a hyphen (`{word[i:i+3] for i in range(len(word) - 2) if '-' not in
word[i:i+3]}`); the Python set is modelled as a deduplicated list. -/
def generate_substrings (word : Str) : List Str :=
  (((List.range (word.length - 2)).map (fun i => (word.drop i).take 3)).filter
    (fun s => ! s.contains '-')).dedup

/-- Lookup in the association-list model of a Python dict. -/
def dget : List (Str × Nat) → Str → Option Nat
  | [], _ => none
  | (a, b) :: rest, k => if a = k then some b else dget rest k

/-- Lookup with the `defaultdict(int)` default. -/
def dgetD (d : List (Str × Nat)) (k : Str) : Nat := (dget d k).getD 0

/-- Model of `d[k] += 1` on a `defaultdict(int)`: increment in place, or
append the key with value 1 when absent. -/
def dd_incr (d : List (Str × Nat)) (k : Str) : List (Str × Nat) :=
  match d with
  | [] => [(k, 1)]
  | (k', v) :: rest => if k' == k then (k', v + 1) :: rest else (k', v) :: dd_incr rest k

/-- Model of reading `d[k]` on a `defaultdict(int)`: returns the value and
the (possibly extended) dict, because a missing key is inserted with 0. -/
def dd_read (d : List (Str × Nat)) (k : Str) : Nat × List (Str × Nat) :=
  match dget d k with
  | some v => (v, d)
  | none => (0, d ++ [(k, 0)])

/-- Normalisation applied to each corpus line: `line.strip().lower()`. -/
def normWord (l : Str) : Str := pyLower (pyStrip l)

/-- The unique-word set built by `process_words` (a Python set, modelled as
a list deduplicated by first occurrence, discarding empty lines). -/
def unique_words_of (lines : List Str) : List Str :=
  ((lines.map normWord).filter (fun w => w ≠ [])).dedup

/-- Per-word accumulation of `process_words`: one increment per element of
the word's substring set (the inner `seen_substrings` guard never fires
because `generate_substrings` already returns a set). -/
def count_word (counts : List (Str × Nat)) (word : Str) : List (Str × Nat) :=
  (generate_substrings word).foldl dd_incr counts

/-- `process_words`: the unique-word set and the fragment frequency map. -/
def process_words (lines : List Str) : List Str × List (Str × Nat) :=
  let uw := unique_words_of lines
  (uw, uw.foldl count_word [])

/-- The session state of `GameApp`: its counters and prompt fields together
with the tkinter widgets that hold user-visible state (error label text,
solutions listbox contents, min/max entry strings, missed-only checkbox). -/
structure Game where
  unique_words : List Str
  substrings : List (Str × Nat)
  skipped_prompts : List (Option Str)
  missed_prompts : List Str
  solved_prompts : Nat
  total_prompts : Nat
  current_prompt : Option Str
  error_text : Str
  solutions_box : List Str
  min_entry : Str
  max_entry : Str
  missed_only : Bool
  deriving DecidableEq

/-- How an event handler terminates: normally, by accepting or rejecting an
answer, by quitting the main loop, or by raising an uncaught exception. -/
inductive Outcome where
  | normal
  | accepted
  | rejected
  | quit
  | raised
  deriving DecidableEq

/-- Header row written when the missed-prompts file is created. -/
def headerLine : Str := str "Prompt,Missed Count\n"

/-- `load_missed_prompts`: if the file does not exist return `[]`, else the
text before the first comma of each stripped line after the header, in file
order. -/
def load_missed_prompts (log : Option Str) : List Str :=
  match log with
  | none => []
  | some content =>
    ((pyReadlines content).drop 1).map (fun l => (pySplit ',' (pyStrip l)).headD [])

/-- `get_min_solutions`: parse the min entry, defaulting to 0 on `ValueError`. -/
def get_min_solutions (g : Game) : Int := (parsePyInt g.min_entry).getD 0

/-- `get_max_solutions`: parse the max entry; `none` models the
`float('inf')` default taken on `ValueError`. -/
def get_max_solutions (g : Game) : Option Int := parsePyInt g.max_entry

/-- Comparison of a count against the max bound, where `none` is infinity. -/
def leMax (c : Nat) (m : Option Int) : Bool :=
  match m with
  | none => true
  | some v => decide ((c : Int) ≤ v)

/-- The candidate pool `filtered_substrings` computed by `show_prompt`:
the loaded missed prompts when the checkbox is set, else the fragments
whose count lies between the parsed bounds. -/
def candidate_substrings (g : Game) : List Str :=
  if g.missed_only then g.missed_prompts
  else
    (g.substrings.filter
      (fun r => decide (get_min_solutions g ≤ (r.2 : Int)) && leMax r.2 (get_max_solutions g))).map
      Prod.fst

/-- Error message shown by `show_prompt` on an empty candidate pool. -/
def noPromptsMsg : Str := str "No prompts match the specified range."

/-- `show_prompt`: choose a random candidate (`choose` is the random index)
and display it, or report that no prompts match.  Rendering the prompt
label reads `self.substrings[self.current_prompt]` on a `defaultdict`, so
the read returns the stored count or inserts the key with 0. -/
def show_prompt (g : Game) (choose : Nat) : Game :=
  let filtered := candidate_substrings g
  if filtered.isEmpty then { g with error_text := noPromptsMsg }
  else
    let p := filtered.getD (choose % filtered.length) []
    let rd := dd_read g.substrings p
    { g with current_prompt := some p, substrings := rd.2 }

/-- `display_solutions`: clear the listbox, insert the first 5 solutions,
then advance to a new prompt. -/
def display_solutions (g : Game) (solutions : List Str) (choose : Nat) : Game :=
  show_prompt { g with solutions_box := solutions.take 5 } choose

/-- Error message prefix used by `handle_user_input`. -/
def incorrectMsg : Str := str "Incorrect word: "

/-- `handle_user_input`: strip and lowercase the entry text; quit on
`"exit"`; accept when the input is a unique word containing the current
prompt (a `None` prompt makes the containment test raise `TypeError`);
otherwise report the input as incorrect.  `shuf` models `random.shuffle`
and `choose` the `random.choice` of the next prompt. -/
def handle_user_input (g : Game) (raw : Str) (shuf : List Str → List Str) (choose : Nat) :
    Outcome × Game :=
  let user_input := pyLower (pyStrip raw)
  if user_input = str "exit" then (.quit, g)
  else if g.unique_words.contains user_input then
    match g.current_prompt with
    | none => (.raised, g)
    | some p =>
      if isSubstr p user_input then
        let solutions := g.unique_words.filter (fun w => isSubstr p w)
        let g1 := { g with solved_prompts := g.solved_prompts + 1,
                           total_prompts := g.total_prompts + 1 }
        (.accepted, display_solutions g1 (shuf solutions) choose)
      else (.rejected, { g with error_text := incorrectMsg ++ user_input })
  else (.rejected, { g with error_text := incorrectMsg ++ user_input })

/-- Linear scan of `log_missed_prompt`: index of the first line that the
prompt is a literal prefix of (`line.startswith(prompt)`). -/
def scanPrefixIdx (p : Str) : List Str → Option Nat
  | [] => none
  | l :: ls => if p.isPrefixOf l then some 0 else (scanPrefixIdx p ls).map (fun i => i + 1)

/-- Count field of a matched log line: `int(line.strip().split(',')[1])`;
`none` models the `IndexError`/`ValueError` on a malformed line. -/
def rowCount (line : Str) : Option Int :=
  match pySplit ',' (pyStrip line) with
  | _ :: c :: _ => parsePyInt c
  | _ => none

/-- `log_missed_prompt`: create the file with a header when absent, read
all lines, bump the count of the first line the prompt prefixes or append
a fresh `"<prompt>,1"` row, then seek to the start and write the lines
back (without truncating).  Returns the resulting file content and whether
the handler raised: `startswith(None)` and `int` on a malformed field raise
before anything is written back. -/
def log_missed_prompt (log : Option Str) (prompt : Option Str) : Option Str × Bool :=
  let content := match log with | none => headerLine | some c => c
  let lines := pyReadlines content
  match prompt with
  | none =>
    if lines.isEmpty then (some (overlay (lines ++ [str "None,1\n"]).flatten content), false)
    else (some content, true)
  | some p =>
    match scanPrefixIdx p lines with
    | some i =>
      match rowCount (lines.getD i []) with
      | none => (some content, true)
      | some c =>
        (some (overlay (lines.set i (p ++ [','] ++ intToStr (c + 1) ++ ['\n'])).flatten content),
          false)
    | none => (some (overlay (lines ++ [p ++ str ",1\n"]).flatten content), false)

/-- `skip_prompt`: log the miss (which may raise), append the prompt to the
session skipped list, compute the solutions (raising `TypeError` when the
prompt is `None`), count the attempt, reveal the solutions and advance,
then clear the entry and the error label. -/
def skip_prompt (g : Game) (log : Option Str) (shuf : List Str → List Str) (choose : Nat) :
    Outcome × Game × Option Str :=
  match log_missed_prompt log g.current_prompt with
  | (log2, true) => (.raised, g, log2)
  | (log2, false) =>
    let g1 := { g with skipped_prompts := g.skipped_prompts ++ [g.current_prompt] }
    match g.current_prompt with
    | none => (.raised, g1, log2)
    | some p =>
      let solutions := g.unique_words.filter (fun w => isSubstr p w)
      let g2 := { g1 with total_prompts := g1.total_prompts + 1 }
      let g3 := display_solutions g2 (shuf solutions) choose
      (.normal, { g3 with error_text := [] }, log2)

/-- User actions the GUI can forward to the session. -/
inductive Op where
  | submit (raw : Str) (shuf : List Str → List Str) (choose : Nat)
  | skip (shuf : List Str → List Str) (choose : Nat)
  | setMin (s : Str)
  | setMax (s : Str)
  | setMissedOnly (b : Bool)
  | newPrompt (choose : Nat)

/-- A session: the in-memory game state plus the missed-log file content. -/
structure Sess where
  game : Game
  log : Option Str
  deriving DecidableEq

/-- One step of the session under a user action. -/
def stepOp (s : Sess) (op : Op) : Sess :=
  match op with
  | .submit raw shuf choose => { s with game := (handle_user_input s.game raw shuf choose).2 }
  | .skip shuf choose =>
    let r := skip_prompt s.game s.log shuf choose
    { game := r.2.1, log := r.2.2 }
  | .setMin v => { s with game := { s.game with min_entry := v } }
  | .setMax v => { s with game := { s.game with max_entry := v } }
  | .setMissedOnly b => { s with game := { s.game with missed_only := b } }
  | .newPrompt choose => { s with game := show_prompt s.game choose }

/-- Run a list of user actions in order. -/
def runOps (s : Sess) (ops : List Op) : Sess := ops.foldl stepOp s

/-- The state after `GameApp.__init__` and `setup_ui`: counters zeroed,
missed prompts loaded once from the file, entries preset to "1" and
"1000", checkbox off, then an initial `show_prompt`. -/
def initSess (uw : List Str) (subs : List (Str × Nat)) (log : Option Str) (choose : Nat) :
    Sess :=
  { game := show_prompt
      { unique_words := uw, substrings := subs, skipped_prompts := [],
        missed_prompts := load_missed_prompts log, solved_prompts := 0, total_prompts := 0,
        current_prompt := none, error_text := [], solutions_box := [],
        min_entry := str "1", max_entry := str "1000", missed_only := false } choose,
    log := log }

/-- A log row as `log_missed_prompt` writes it: fragment, comma, decimal
count, newline. -/
def rowOf (f : Str) (n : Nat) : Str := f ++ [','] ++ decDigits n ++ ['\n']

/-- File content consisting of the header and one row per (fragment, count)
pair, as maintained by `log_missed_prompt`. -/
def mkLog (rows : List (Str × Nat)) : Str :=
  headerLine ++ (rows.map (fun r => rowOf r.1 r.2)).flatten

/-- Index of the first row recording the given fragment. -/
def fragIdx (p : Str) : List (Str × Nat) → Option Nat
  | [] => none
  | r :: rs => if r.1 = p then some 0 else (fragIdx p rs).map (fun i => i + 1)

/-- Well-formedness of a fragment as the program produces them: three
characters, no comma, no newline, no whitespace. -/
def WFfrag (f : Str) : Prop :=
  f.length = 3 ∧ (∀ c ∈ f, c ≠ ',') ∧ (∀ c ∈ f, c ≠ '\n') ∧
    ∀ c ∈ f, c.isWhitespace = false

instance decidableWFfrag (f : Str) : Decidable (WFfrag f) := by
  unfold WFfrag
  infer_instance

/-- The missed-log file is absent or has nonempty content; the program
itself never leaves an existing empty file behind. -/
def logOK (log : Option Str) : Prop := log = none ∨ ∃ c, log = some c ∧ c ≠ []

/-- Inductive invariant for reachable sessions: the attempt counter splits
into solved answers and skipped prompts, and the log file stays absent or
nonempty. -/
def ReachInv (s : Sess) : Prop :=
  s.game.total_prompts = s.game.solved_prompts + s.game.skipped_prompts.length ∧ logOK s.log

/-- The unique-word set of the two-word example corpus. -/
def wWords : List Str := (process_words [str "apple", str "apply"]).1

/-- The frequency mapping of the two-word example corpus. -/
def wSubs : List (Str × Nat) := (process_words [str "apple", str "apply"]).2

/-- A concrete session state over the example corpus with prompt "app". -/
def wGame : Game :=
  { unique_words := wWords, substrings := wSubs, skipped_prompts := [],
    missed_prompts := [], solved_prompts := 0, total_prompts := 0,
    current_prompt := some (str "app"), error_text := [], solutions_box := [],
    min_entry := str "1", max_entry := str "1000", missed_only := false }

/-- The example session with unparseable bound entries. -/
def g7 : Game := { wGame with min_entry := str "abc", max_entry := str "1x" }

/-- The example session restricted to missed prompts while none are loaded. -/
def g8 : Game := { wGame with missed_only := true }

/-- A session state whose corpus contains the word "exit" and whose
current prompt is a fragment of it. -/
def cxGame : Game :=
  { unique_words := [str "exit"], substrings := [(str "exi", 1), (str "xit", 1)],
    skipped_prompts := [], missed_prompts := [], solved_prompts := 0, total_prompts := 0,
    current_prompt := some (str "exi"), error_text := [], solutions_box := [],
    min_entry := str "1", max_entry := str "1000", missed_only := false }

/-- The example session with no current prompt. -/
def gN : Game := { wGame with current_prompt := none }

/-- The session obtained by loading the corpus {"apple"} together with a
missed log recording the fragment "zzz" (left over from an earlier corpus). -/
def zSess0 : Sess :=
  initSess (process_words [str "apple"]).1 (process_words [str "apple"]).2
    (some (str "Prompt,Missed Count\nzzz,1\n")) 0

/-- The same session after switching on the missed-only filter and
selecting a prompt. -/
def zSess1 : Sess := runOps zSess0 [.setMissedOnly true, .newPrompt 0]

theorem length_mem_generate_substrings {f w : Str} (h : f ∈ generate_substrings w) :
    f.length = 3 ∧ f.contains '-' = false := by
  unfold generate_substrings at h
  rw [List.mem_dedup, List.mem_filter] at h
  obtain ⟨hm, hd⟩ := h
  rw [List.mem_map] at hm
  obtain ⟨i, hi, rfl⟩ := hm
  rw [List.mem_range] at hi
  refine ⟨?_, by simpa using hd⟩
  simp only [List.length_take, List.length_drop]
  omega

theorem isSubstr_iff {f w : Str} :
    isSubstr f w = true ↔ ∃ i, i ≤ w.length ∧ (w.drop i).take f.length = f := by
  unfold isSubstr
  rw [List.any_eq_true]
  constructor
  · rintro ⟨i, hi, hp⟩
    exact ⟨i, by simpa [Nat.lt_succ_iff] using List.mem_range.mp hi, by simpa using hp⟩
  · rintro ⟨i, hi, hp⟩
    exact ⟨i, List.mem_range.mpr (by omega), by simpa using hp⟩

theorem mem_generate_substrings_iff {f w : Str} (h3 : f.length = 3)
    (hd : f.contains '-' = false) : f ∈ generate_substrings w ↔ isSubstr f w = true := by
  unfold generate_substrings
  rw [List.mem_dedup, List.mem_filter, List.mem_map, isSubstr_iff]
  constructor
  · rintro ⟨⟨i, hi, hf⟩, _⟩
    rw [List.mem_range] at hi
    exact ⟨i, by omega, by rw [h3, hf]⟩
  · rintro ⟨i, hi, hp⟩
    rw [h3] at hp
    have hlen : ((w.drop i).take 3).length = 3 := by rw [hp]; exact h3
    rw [List.length_take, List.length_drop] at hlen
    exact ⟨⟨i, List.mem_range.mpr (by omega), hp⟩, by simp [← hp] at hd ⊢; simpa using hd⟩

theorem nodup_generate_substrings (w : Str) : (generate_substrings w).Nodup := by
  unfold generate_substrings; exact List.nodup_dedup _

theorem countP_eq_of_nodup (l : List Str) (f : Str) (h : l.Nodup) :
    l.countP (fun a => decide (a = f)) = if f ∈ l then 1 else 0 := by
  induction l with
  | nil => simp
  | cons a l ih =>
    rw [List.nodup_cons] at h
    rw [List.countP_cons, ih h.2]
    by_cases haf : a = f
    · subst haf
      simp [h.1]
    · by_cases hm : f ∈ l <;> simp [hm, haf, Ne.symm haf]

theorem dget_dd_incr (d : List (Str × Nat)) (k f : Str) :
    dget (dd_incr d k) f = if f = k then some (dgetD d k + 1) else dget d f := by
  induction d with
  | nil =>
    by_cases h : f = k
    · subst h; simp [dd_incr, dget, dgetD]
    · simp [dd_incr, dget, dgetD, h, Ne.symm h]
  | cons r rest ih =>
    obtain ⟨a, b⟩ := r
    by_cases hak : a = k
    · subst hak
      by_cases hfa : f = a
      · subst hfa; simp [dd_incr, dget, dgetD]
      · simp [dd_incr, dget, dgetD, hfa, Ne.symm hfa]
    · have hbk : (a == k) = false := by simp [hak]
      by_cases hfk : f = k
      · subst hfk
        have haf : a ≠ f := hak
        simp [dd_incr, hbk, dget, dgetD, haf, ih]
      · by_cases haf : a = f
        · subst haf; simp [dd_incr, hbk, dget, hfk]
        · simp [dd_incr, hbk, dget, haf, ih, hfk]

theorem dgetD_dd_incr (d : List (Str × Nat)) (k f : Str) :
    dgetD (dd_incr d k) f = dgetD d f + if f = k then 1 else 0 := by
  by_cases h : f = k <;> simp [dgetD, dget_dd_incr, h]

theorem dget_dd_incr_eq_none (d : List (Str × Nat)) (k f : Str) :
    dget (dd_incr d k) f = none ↔ dget d f = none ∧ f ≠ k := by
  by_cases h : f = k <;> simp [dget_dd_incr, h]

theorem dgetD_foldl_dd_incr (l : List Str) (d : List (Str × Nat)) (f : Str) :
    dgetD (l.foldl dd_incr d) f = dgetD d f + l.countP (fun a => decide (a = f)) := by
  induction l generalizing d with
  | nil => simp
  | cons a l ih =>
    rw [List.foldl_cons, ih, dgetD_dd_incr, List.countP_cons]
    by_cases h : f = a
    · subst h; simp; omega
    · simp [h, Ne.symm h]

theorem dget_foldl_dd_incr_none (l : List Str) (d : List (Str × Nat)) (f : Str) :
    dget (l.foldl dd_incr d) f = none ↔ dget d f = none ∧ f ∉ l := by
  induction l generalizing d with
  | nil => simp
  | cons a l ih =>
    rw [List.foldl_cons, ih, dget_dd_incr_eq_none]
    simp only [List.mem_cons]
    constructor
    · rintro ⟨⟨h1, h2⟩, h3⟩; exact ⟨h1, by rintro (rfl | hm) <;> [exact h2 rfl; exact h3 hm]⟩
    · rintro ⟨h1, h2⟩; exact ⟨⟨h1, fun hc => h2 (Or.inl hc)⟩, fun hm => h2 (Or.inr hm)⟩

theorem dgetD_count_word (d : List (Str × Nat)) (w f : Str) :
    dgetD (count_word d w) f = dgetD d f + if f ∈ generate_substrings w then 1 else 0 := by
  unfold count_word
  rw [dgetD_foldl_dd_incr, countP_eq_of_nodup _ _ (nodup_generate_substrings w)]

theorem dget_count_word_none (d : List (Str × Nat)) (w f : Str) :
    dget (count_word d w) f = none ↔ dget d f = none ∧ f ∉ generate_substrings w := by
  unfold count_word; exact dget_foldl_dd_incr_none _ _ _

theorem dgetD_foldl_count_word (ws : List Str) (d : List (Str × Nat)) (f : Str) :
    dgetD (ws.foldl count_word d) f =
      dgetD d f + ws.countP (fun w => decide (f ∈ generate_substrings w)) := by
  induction ws generalizing d with
  | nil => simp
  | cons w ws ih =>
    rw [List.foldl_cons, ih, dgetD_count_word, List.countP_cons]
    by_cases h : f ∈ generate_substrings w <;> simp [h] <;> omega

theorem dget_foldl_count_word_none (ws : List Str) (d : List (Str × Nat)) (f : Str) :
    dget (ws.foldl count_word d) f = none ↔
      dget d f = none ∧ ∀ w ∈ ws, f ∉ generate_substrings w := by
  induction ws generalizing d with
  | nil => simp
  | cons w ws ih =>
    rw [List.foldl_cons, ih, dget_count_word_none]
    simp only [List.forall_mem_cons]
    tauto

/-- C1: every fragment present in the frequency mapping has as its count
the number of distinct corpus words containing it as a substring (each
word contributing at most once); in particular for the corpus
{"apple", "apply"} the fragment "app" has count 2 and "ple", "ply" have
count 1. -/
theorem C1_fragment_frequency :
    (∀ lines f n, dget (process_words lines).2 f = some n →
      n = ((process_words lines).1.filter (fun w => isSubstr f w)).length) ∧
    dget (process_words [str "apple", str "apply"]).2 (str "app") = some 2 ∧
    dget (process_words [str "apple", str "apply"]).2 (str "ple") = some 1 ∧
    dget (process_words [str "apple", str "apply"]).2 (str "ply") = some 1 := by
  refine ⟨?_, by decide, by decide, by decide⟩
  intro lines f n h
  simp only [process_words] at h ⊢
  set uw := unique_words_of lines with huw
  have hne : dget (uw.foldl count_word []) f ≠ none := by rw [h]; simp
  have hw : ∃ w ∈ uw, f ∈ generate_substrings w := by
    by_contra hc
    push_neg at hc
    exact hne ((dget_foldl_count_word_none uw [] f).mpr ⟨rfl, hc⟩)
  obtain ⟨w0, hw0, hf0⟩ := hw
  obtain ⟨h3, hdash⟩ := length_mem_generate_substrings hf0
  have hn : n = dgetD (uw.foldl count_word []) f := by simp [dgetD, h]
  rw [dgetD_foldl_count_word, List.countP_eq_length_filter] at hn
  have hflt : uw.filter (fun w => decide (f ∈ generate_substrings w)) =
      uw.filter (fun w => isSubstr f w) := by
    apply List.filter_congr
    intro w _
    by_cases hm : f ∈ generate_substrings w
    · simp [hm, (mem_generate_substrings_iff h3 hdash).mp hm]
    · have : isSubstr f w = false := by
        cases hiss : isSubstr f w
        · rfl
        · exact absurd ((mem_generate_substrings_iff h3 hdash).mpr hiss) hm
      simp [hm, this]
  rw [hflt] at hn
  simpa [dgetD, dget] using hn

/-- Witness for C1 at the example corpus. -/
theorem C1_fragment_frequency_w :
    2 = ((process_words [str "apple", str "apply"]).1.filter
      (fun w => isSubstr (str "app") w)).length :=
  C1_fragment_frequency.1 [str "apple", str "apply"] (str "app") 2 (by decide)

theorem dget_eq_none_iff (d : List (Str × Nat)) (k : Str) :
    dget d k = none ↔ k ∉ d.map Prod.fst := by
  induction d with
  | nil => simp [dget]
  | cons r rest ih =>
    obtain ⟨a, b⟩ := r
    by_cases h : a = k
    · subst h; simp [dget]
    · simp [dget, h, ih, Ne.symm h]

theorem mem_of_dget_eq_some {d : List (Str × Nat)} {f : Str} {c : Nat}
    (h : dget d f = some c) : (f, c) ∈ d := by
  induction d with
  | nil => simp [dget] at h
  | cons r rest ih =>
    obtain ⟨a, b⟩ := r
    by_cases hak : a = f
    · subst hak
      simp [dget] at h
      simp [h]
    · simp [dget, hak] at h
      simp [ih h]

theorem dget_eq_some_of_mem {d : List (Str × Nat)} {f : Str} {c : Nat}
    (hnd : (d.map Prod.fst).Nodup) (hm : (f, c) ∈ d) : dget d f = some c := by
  induction d with
  | nil => simp at hm
  | cons r rest ih =>
    obtain ⟨a, b⟩ := r
    simp only [List.map_cons, List.nodup_cons] at hnd
    rcases List.mem_cons.mp hm with heq | htl
    · injection heq with h1 h2
      subst h1; subst h2
      simp [dget]
    · have haf : a ≠ f := by
        rintro rfl
        exact hnd.1 (List.mem_map.mpr ⟨(a, c), htl, rfl⟩)
      simp [dget, haf, ih hnd.2 htl]

theorem keys_dd_incr (d : List (Str × Nat)) (k : Str) :
    (dd_incr d k).map Prod.fst =
      if dget d k = none then d.map Prod.fst ++ [k] else d.map Prod.fst := by
  induction d with
  | nil => simp [dd_incr, dget]
  | cons r rest ih =>
    obtain ⟨a, b⟩ := r
    by_cases h : a = k
    · subst h; simp [dd_incr, dget]
    · have hb : (a == k) = false := by simp [h]
      by_cases hn : dget rest k = none <;> simp [dd_incr, hb, dget, h, ih, hn]

theorem nodup_keys_dd_incr {d : List (Str × Nat)} (k : Str)
    (h : (d.map Prod.fst).Nodup) : ((dd_incr d k).map Prod.fst).Nodup := by
  rw [keys_dd_incr]
  by_cases hn : dget d k = none
  · rw [if_pos hn]
    rw [List.nodup_append]
    exact ⟨h, List.nodup_singleton k,
      by simpa [List.disjoint_singleton] using (dget_eq_none_iff d k).mp hn⟩
  · rwa [if_neg hn]

theorem nodup_keys_foldl_dd_incr (l : List Str) (d : List (Str × Nat))
    (h : (d.map Prod.fst).Nodup) : ((l.foldl dd_incr d).map Prod.fst).Nodup := by
  induction l generalizing d with
  | nil => simpa using h
  | cons a l ih => exact ih _ (nodup_keys_dd_incr a h)

theorem nodup_keys_process_words (lines : List Str) :
    ((process_words lines).2.map Prod.fst).Nodup := by
  simp only [process_words]
  generalize unique_words_of lines = ws
  have : ∀ (d : List (Str × Nat)), (d.map Prod.fst).Nodup →
      ((ws.foldl count_word d).map Prod.fst).Nodup := by
    induction ws with
    | nil => exact fun d h => h
    | cons w ws ih =>
      intro d h
      exact ih _ (nodup_keys_foldl_dd_incr _ _ h)
  exact this [] (by simp)

theorem show_prompt_preserves (g : Game) (c : Nat) :
    (show_prompt g c).solved_prompts = g.solved_prompts ∧
    (show_prompt g c).total_prompts = g.total_prompts ∧
    (show_prompt g c).skipped_prompts = g.skipped_prompts ∧
    (show_prompt g c).missed_prompts = g.missed_prompts ∧
    (show_prompt g c).unique_words = g.unique_words ∧
    (show_prompt g c).min_entry = g.min_entry ∧
    (show_prompt g c).max_entry = g.max_entry ∧
    (show_prompt g c).missed_only = g.missed_only ∧
    (show_prompt g c).solutions_box = g.solutions_box := by
  unfold show_prompt
  by_cases h : (candidate_substrings g).isEmpty <;> simp [h]

/-- C8: when the candidate pool is empty, `show_prompt` only reports the
"no prompts match" message; the current prompt and all other session state
are untouched, and the operation is total (no crash). -/
theorem C8_empty_candidates (g : Game) (choose : Nat)
    (h : candidate_substrings g = []) :
    show_prompt g choose = { g with error_text := noPromptsMsg } := by
  unfold show_prompt
  simp [h]

/-- Witness for C8: a missed-only session with nothing in the missed list. -/
theorem C8_empty_candidates_w :
    candidate_substrings g8 = [] ∧
    show_prompt g8 0 = { g8 with error_text := noPromptsMsg } :=
  ⟨by decide, C8_empty_candidates _ 0 (by decide)⟩

/-- C7: with the missed-only filter off, the candidate pool consists of
exactly the fragments whose frequency lies within the parsed bounds; an
unparseable min defaults to 0, an unparseable max to infinity, and
`show_prompt` never reports a parse error (the only message it can emit is
the empty-pool one). -/
theorem C7_bounds_filter (g : Game) (f : Str)
    (hm : g.missed_only = false)
    (hnd : (g.substrings.map Prod.fst).Nodup) :
    (f ∈ candidate_substrings g ↔ ∃ c, dget g.substrings f = some c ∧
      get_min_solutions g ≤ (c : Int) ∧ leMax c (get_max_solutions g) = true) ∧
    (parsePyInt g.min_entry = none → get_min_solutions g = 0) ∧
    (parsePyInt g.max_entry = none → ∀ c, leMax c (get_max_solutions g) = true) ∧
    (∀ choose, (show_prompt g choose).error_text = g.error_text ∨
      (show_prompt g choose).error_text = noPromptsMsg) := by
  refine ⟨?_, ?_, ?_, ?_⟩
  · unfold candidate_substrings
    rw [if_neg (by simp [hm])]
    rw [List.mem_map]
    constructor
    · rintro ⟨r, hr, rfl⟩
      rw [List.mem_filter] at hr
      obtain ⟨hmem, hpred⟩ := hr
      rw [Bool.and_eq_true, decide_eq_true_eq] at hpred
      exact ⟨r.2, dget_eq_some_of_mem hnd (by simpa using hmem), hpred.1, hpred.2⟩
    · rintro ⟨c, hg, h1, h2⟩
      refine ⟨(f, c), ?_, rfl⟩
      rw [List.mem_filter]
      exact ⟨mem_of_dget_eq_some hg, by simp [h1, h2]⟩
  · intro h; simp [get_min_solutions, h]
  · intro h c; simp [leMax, get_max_solutions, h]
  · intro choose
    unfold show_prompt
    by_cases h : (candidate_substrings g).isEmpty <;> simp [h]

/-- Witness for C7: unparseable bounds over the example mapping. -/
theorem C7_bounds_filter_w :
    ((str "app") ∈ candidate_substrings g7 ↔ ∃ c, dget g7.substrings (str "app") = some c ∧
      get_min_solutions g7 ≤ (c : Int) ∧ leMax c (get_max_solutions g7) = true) ∧
    (parsePyInt g7.min_entry = none → get_min_solutions g7 = 0) ∧
    (parsePyInt g7.max_entry = none → ∀ c, leMax c (get_max_solutions g7) = true) ∧
    (∀ choose, (show_prompt g7 choose).error_text = g7.error_text ∨
      (show_prompt g7 choose).error_text = noPromptsMsg) :=
  C7_bounds_filter g7 (str "app") (by decide) (by decide)

theorem contains_eq_false_of_not_mem {l : List Str} {a : Str} (h : a ∉ l) :
    l.contains a = false :=
  Bool.eq_false_iff.mpr (fun hct => h (List.elem_iff.mp hct))

theorem handle_accept_eq (g : Game) (p : Str) (raw : Str) (shuf : List Str → List Str)
    (choose : Nat)
    (hp : g.current_prompt = some p)
    (hexit : pyLower (pyStrip raw) ≠ str "exit")
    (hmem : pyLower (pyStrip raw) ∈ g.unique_words)
    (hsub : isSubstr p (pyLower (pyStrip raw)) = true) :
    handle_user_input g raw shuf choose =
      (.accepted, display_solutions
        { g with solved_prompts := g.solved_prompts + 1, total_prompts := g.total_prompts + 1 }
        (shuf (g.unique_words.filter (fun w => isSubstr p w))) choose) := by
  unfold handle_user_input
  rw [if_neg hexit]
  have hc : g.unique_words.contains (pyLower (pyStrip raw)) = true := by
    simpa [List.elem_iff] using hmem
  simp only [hc, if_true, hp, hsub]

theorem handle_reject_eq (g : Game) (raw : Str) (shuf : List Str → List Str) (choose : Nat)
    (hexit : pyLower (pyStrip raw) ≠ str "exit")
    (hrej : pyLower (pyStrip raw) ∉ g.unique_words ∨
      ∃ p, g.current_prompt = some p ∧ isSubstr p (pyLower (pyStrip raw)) = false) :
    handle_user_input g raw shuf choose =
      (.rejected, { g with error_text := incorrectMsg ++ pyLower (pyStrip raw) }) := by
  unfold handle_user_input
  rw [if_neg hexit]
  rcases hrej with hnm | ⟨p, hp, hsub⟩
  · rw [contains_eq_false_of_not_mem hnm]
    simp
  · by_cases hmem : pyLower (pyStrip raw) ∈ g.unique_words
    · have hc : g.unique_words.contains (pyLower (pyStrip raw)) = true := by
        simpa [List.elem_iff] using hmem
      simp only [hc, if_true, hp, hsub]
      simp
    · rw [contains_eq_false_of_not_mem hmem]
      simp

/-- C6: a rejected submission only writes the error label, echoing the
normalised rejected input; the solved count, total count, current prompt,
skipped list and log file are unchanged. -/
theorem C6_rejection_no_state_change (g : Game) (raw : Str) (shuf : List Str → List Str)
    (choose : Nat) (g' : Game)
    (h : handle_user_input g raw shuf choose = (.rejected, g')) :
    g' = { g with error_text := incorrectMsg ++ pyLower (pyStrip raw) } ∧
    ∀ log : Option Str, stepOp ⟨g, log⟩ (.submit raw shuf choose) =
      ⟨{ g with error_text := incorrectMsg ++ pyLower (pyStrip raw) }, log⟩ := by
  have hg : g' = { g with error_text := incorrectMsg ++ pyLower (pyStrip raw) } := by
    by_cases hexit : pyLower (pyStrip raw) = str "exit"
    · unfold handle_user_input at h
      simp [hexit] at h
    · by_cases hmem : pyLower (pyStrip raw) ∈ g.unique_words
      · cases hp : g.current_prompt with
        | none =>
          unfold handle_user_input at h
          rw [if_neg hexit] at h
          have hc : g.unique_words.contains (pyLower (pyStrip raw)) = true := by
            simpa [List.elem_iff] using hmem
          simp only [hc, if_true, hp] at h
          simp at h
        | some p =>
          by_cases hsub : isSubstr p (pyLower (pyStrip raw)) = true
          · rw [handle_accept_eq g p raw shuf choose hp hexit hmem hsub] at h
            simp at h
          · rw [handle_reject_eq g raw shuf choose hexit
              (Or.inr ⟨p, hp, Bool.eq_false_iff.mpr hsub⟩)] at h
            simp only [Prod.mk.injEq] at h
            rw [← h.2, hp]
      · rw [handle_reject_eq g raw shuf choose hexit (Or.inl hmem)] at h
        simp only [Prod.mk.injEq] at h
        exact h.2.symm
  refine ⟨hg, fun log => ?_⟩
  simp [stepOp, h, hg]

/-- Witness for C6: rejecting "xyz" in the example session. -/
theorem C6_rejection_no_state_change_w :
    (handle_user_input wGame (str "xyz") id 0).2 =
      { wGame with error_text := incorrectMsg ++ pyLower (pyStrip (str "xyz")) } ∧
    ∀ log : Option Str, stepOp ⟨wGame, log⟩ (.submit (str "xyz") id 0) =
      ⟨{ wGame with error_text := incorrectMsg ++ pyLower (pyStrip (str "xyz")) }, log⟩ :=
  C6_rejection_no_state_change wGame (str "xyz") id 0
    (handle_user_input wGame (str "xyz") id 0).2 (by decide)

/-- Counterexample to C2 as stated: over a corpus containing the word
"exit" with prompt "exi", the input "exit" satisfies the claim's
acceptance condition (it equals a unique word containing the fragment)
yet is not accepted — the exit check fires first and quits. -/
theorem C2_accept_iff_cx :
    (pyLower (pyStrip (str "exit")) ∈ cxGame.unique_words ∧
     isSubstr (str "exi") (pyLower (pyStrip (str "exit"))) = true ∧
     cxGame.current_prompt = some (str "exi")) ∧
    handle_user_input cxGame (str "exit") id 0 = (.quit, cxGame) ∧
    (handle_user_input cxGame (str "exit") id 0).1 ≠ .accepted ∧
    (handle_user_input cxGame (str "exit") id 0).2.solved_prompts = cxGame.solved_prompts := by
  decide

/-- C2 amended: a submission is accepted iff, after trimming and
lowercasing, it is not the reserved exit literal, equals a unique word and
that word contains the current fragment; every acceptance bumps the solved
and total counts by one and reveals at most 5 words, all containing the
fragment. -/
theorem C2_accepted_iff_amended (g : Game) (p : Str) (raw : Str)
    (shuf : List Str → List Str) (choose : Nat)
    (hp : g.current_prompt = some p)
    (hshuf : ∀ l : List Str, (shuf l).Perm l) :
    ((handle_user_input g raw shuf choose).1 = .accepted ↔
      (pyLower (pyStrip raw) ≠ str "exit" ∧ pyLower (pyStrip raw) ∈ g.unique_words ∧
        isSubstr p (pyLower (pyStrip raw)) = true)) ∧
    ((handle_user_input g raw shuf choose).1 = .accepted →
      (handle_user_input g raw shuf choose).2.solved_prompts = g.solved_prompts + 1 ∧
      (handle_user_input g raw shuf choose).2.total_prompts = g.total_prompts + 1 ∧
      (handle_user_input g raw shuf choose).2.solutions_box.length ≤ 5 ∧
      ∀ w ∈ (handle_user_input g raw shuf choose).2.solutions_box, isSubstr p w = true) := by
  have hiff : (handle_user_input g raw shuf choose).1 = .accepted ↔
      (pyLower (pyStrip raw) ≠ str "exit" ∧ pyLower (pyStrip raw) ∈ g.unique_words ∧
        isSubstr p (pyLower (pyStrip raw)) = true) := by
    constructor
    · intro hacc
      by_cases hexit : pyLower (pyStrip raw) = str "exit"
      · unfold handle_user_input at hacc
        simp [hexit] at hacc
      · by_cases hmem : pyLower (pyStrip raw) ∈ g.unique_words
        · by_cases hsub : isSubstr p (pyLower (pyStrip raw)) = true
          · exact ⟨hexit, hmem, hsub⟩
          · rw [handle_reject_eq g raw shuf choose hexit
              (Or.inr ⟨p, hp, Bool.eq_false_iff.mpr hsub⟩)] at hacc
            simp at hacc
        · rw [handle_reject_eq g raw shuf choose hexit (Or.inl hmem)] at hacc
          simp at hacc
    · rintro ⟨hexit, hmem, hsub⟩
      rw [handle_accept_eq g p raw shuf choose hp hexit hmem hsub]
  refine ⟨hiff, fun hacc => ?_⟩
  obtain ⟨hexit, hmem, hsub⟩ := hiff.mp hacc
  rw [handle_accept_eq g p raw shuf choose hp hexit hmem hsub]
  unfold display_solutions
  obtain ⟨p1, p2, p3, p4, p5, p6, p7, p8, p9⟩ := show_prompt_preserves
    { g with
      solved_prompts := g.solved_prompts + 1, total_prompts := g.total_prompts + 1,
      solutions_box :=
        (shuf (g.unique_words.filter (fun w => isSubstr p w))).take 5 } choose
  refine ⟨by simpa using p1, by simpa using p2, ?_, ?_⟩
  · rw [show ∀ h : Game, h.solutions_box = h.solutions_box from fun _ => rfl]
    simp only [p9]
    exact (List.length_take_le _ _)
  · intro w hw
    simp only [p9] at hw
    have hw2 : w ∈ shuf (g.unique_words.filter (fun w => isSubstr p w)) :=
      List.take_subset _ _ hw
    have hw3 : w ∈ g.unique_words.filter (fun w => isSubstr p w) :=
      (hshuf _).mem_iff.mp hw2
    exact (List.mem_filter.mp hw3).2

/-- Witness for the amended C2: accepting " APPLE " against prompt "app". -/
theorem C2_accepted_iff_amended_w :
    ((handle_user_input wGame (str " APPLE ") id 0).1 = .accepted ↔
      (pyLower (pyStrip (str " APPLE ")) ≠ str "exit" ∧
        pyLower (pyStrip (str " APPLE ")) ∈ wGame.unique_words ∧
        isSubstr (str "app") (pyLower (pyStrip (str " APPLE "))) = true)) ∧
    ((handle_user_input wGame (str " APPLE ") id 0).1 = .accepted →
      (handle_user_input wGame (str " APPLE ") id 0).2.solved_prompts =
        wGame.solved_prompts + 1 ∧
      (handle_user_input wGame (str " APPLE ") id 0).2.total_prompts =
        wGame.total_prompts + 1 ∧
      (handle_user_input wGame (str " APPLE ") id 0).2.solutions_box.length ≤ 5 ∧
      ∀ w ∈ (handle_user_input wGame (str " APPLE ") id 0).2.solutions_box,
        isSubstr (str "app") w = true) :=
  C2_accepted_iff_amended wGame (str "app") (str " APPLE ") id 0 (by decide)
    (fun l => List.Perm.refl l)

theorem readlinesAux_eq_nil (acc s : Str) :
    readlinesAux acc s = [] ↔ acc = [] ∧ s = [] := by
  induction s generalizing acc with
  | nil =>
    by_cases h : acc = [] <;> simp [readlinesAux, h]
  | cons c rest ih =>
    by_cases h : c = '\n'
    · simp [readlinesAux, h]
    · simp [readlinesAux, h, ih]

theorem pyReadlines_ne_nil {s : Str} (h : s ≠ []) : pyReadlines s ≠ [] := by
  unfold pyReadlines
  rw [Ne, readlinesAux_eq_nil]
  rintro ⟨-, h2⟩
  exact h h2

/-- C10: with no current prompt set, the skip handler raises before
recording any miss-count row (the file keeps its prior content, or just
the fresh header when it did not exist), and submitting a word of the
unique-word set raises instead of being scored. -/
theorem C10_none_prompt_safe (g : Game) (log : Option Str) (shuf : List Str → List Str)
    (choose : Nat) (raw : Str)
    (hp : g.current_prompt = none)
    (hlog : logOK log)
    (hmem : pyLower (pyStrip raw) ∈ g.unique_words)
    (hexit : pyLower (pyStrip raw) ≠ str "exit") :
    (skip_prompt g log shuf choose).1 = .raised ∧
    (skip_prompt g log shuf choose).2.1 = g ∧
    (log = none → (skip_prompt g log shuf choose).2.2 = some headerLine) ∧
    (∀ c, log = some c → (skip_prompt g log shuf choose).2.2 = some c) ∧
    handle_user_input g raw shuf choose = (.raised, g) := by
  have hhandle : handle_user_input g raw shuf choose = (.raised, g) := by
    unfold handle_user_input
    rw [if_neg hexit]
    have hc : g.unique_words.contains (pyLower (pyStrip raw)) = true := by
      simpa [List.elem_iff] using hmem
    simp only [hc, if_true, hp]
  rcases hlog with rfl | ⟨c0, rfl, hc0⟩
  · have hlmp : log_missed_prompt none g.current_prompt = (some headerLine, true) := by
      rw [hp]
      unfold log_missed_prompt
      simp only []
      rw [if_neg (by decide : ¬ (pyReadlines headerLine).isEmpty = true)]
    have hskip : skip_prompt g none shuf choose = (.raised, g, some headerLine) := by
      unfold skip_prompt
      rw [hlmp]
    refine ⟨by rw [hskip], by rw [hskip], fun _ => by rw [hskip], ?_, hhandle⟩
    rintro c hc
    exact absurd hc (by simp)
  · have hlmp : log_missed_prompt (some c0) g.current_prompt = (some c0, true) := by
      rw [hp]
      unfold log_missed_prompt
      simp only []
      rw [if_neg (by simpa [List.isEmpty_iff] using pyReadlines_ne_nil hc0)]
    have hskip : skip_prompt g (some c0) shuf choose = (.raised, g, some c0) := by
      unfold skip_prompt
      rw [hlmp]
    refine ⟨by rw [hskip], by rw [hskip], by rintro ⟨⟩, ?_, hhandle⟩
    rintro c hc
    rw [hskip]
    simpa using hc

/-- Witness for C10: no prompt, absent log file, submitting "apple". -/
theorem C10_none_prompt_safe_w :
    (skip_prompt gN none id 0).1 = .raised ∧
    (skip_prompt gN none id 0).2.1 = gN ∧
    ((none : Option Str) = none → (skip_prompt gN none id 0).2.2 = some headerLine) ∧
    (∀ c, (none : Option Str) = some c → (skip_prompt gN none id 0).2.2 = some c) ∧
    handle_user_input gN (str "apple") id 0 = (.raised, gN) :=
  C10_none_prompt_safe gN none id 0 (str "apple") (by decide) (Or.inl rfl)
    (by decide) (by decide)

/-- C3 fails on the code: in missed-only mode, selecting a logged fragment
that is absent from the frequency mapping makes the prompt-label rendering
read `substrings[prompt]` on the `defaultdict`, inserting the fragment
with count 0 — the mapping's key set changes after corpus loading.  Here
the corpus is {"apple"} and the log records the stale fragment "zzz". -/
theorem C3_defaultdict_mutation :
    zSess1.game.substrings ≠ zSess0.game.substrings ∧
    dget zSess0.game.substrings (str "zzz") = none ∧
    dget zSess1.game.substrings (str "zzz") = some 0 ∧
    zSess1.game.substrings =
      zSess0.game.substrings ++ [(str "zzz", 0)] := by
  decide

theorem scanPrefixIdx_lt_length {p : Str} {l : List Str} {i : Nat}
    (h : scanPrefixIdx p l = some i) : i < l.length := by
  induction l generalizing i with
  | nil => simp [scanPrefixIdx] at h
  | cons a l ih =>
    unfold scanPrefixIdx at h
    by_cases hp : p.isPrefixOf a
    · rw [if_pos hp] at h
      injection h with h
      simp only [List.length_cons]
      omega
    · rw [if_neg hp] at h
      cases hs : scanPrefixIdx p l with
      | none => rw [hs] at h; simp at h
      | some j =>
        rw [hs] at h
        have hj : j + 1 = i := by simpa using h
        have := ih hs
        simp only [List.length_cons]
        omega

theorem mem_set_self : ∀ (l : List Str) (i : Nat) (a : Str), i < l.length → a ∈ l.set i a := by
  intro l
  induction l with
  | nil => intro i a h; simp at h
  | cons b l ih =>
    intro i a h
    cases i with
    | zero => simp
    | succ j =>
      simp only [List.set]
      exact List.mem_cons.mpr (Or.inr (ih j a (by simpa using h)))

theorem flatten_ne_nil_of_mem {L : List Str} {x : Str} (hx : x ∈ L) (hne : x ≠ []) :
    L.flatten ≠ [] := by
  induction L with
  | nil => simp at hx
  | cons a L ih =>
    rw [List.flatten_cons, Ne, List.append_eq_nil]
    rcases List.mem_cons.mp hx with rfl | hm
    · rintro ⟨h1, -⟩; exact hne h1
    · rintro ⟨-, h2⟩; exact ih hm h2

theorem overlay_ne_nil {newC oldC : Str} (h : newC ≠ []) : overlay newC oldC ≠ [] := by
  rw [overlay, Ne, List.append_eq_nil]
  rintro ⟨h1, -⟩
  exact h h1

theorem log_missed_prompt_content_spec (content : Str) (prompt : Option Str)
    (hcontent : content ≠ []) :
    (∃ c, (log_missed_prompt (some content) prompt).1 = some c ∧ c ≠ []) ∧
    (prompt = none → (log_missed_prompt (some content) prompt).2 = true) := by
  have hlines : ¬ ((pyReadlines content).isEmpty = true) := by
    simpa [List.isEmpty_iff] using pyReadlines_ne_nil hcontent
  unfold log_missed_prompt
  cases prompt with
  | none =>
    simp only []
    rw [if_neg hlines]
    exact ⟨⟨content, rfl, hcontent⟩, fun _ => rfl⟩
  | some p =>
    refine ⟨?_, by rintro ⟨⟩⟩
    cases hs : scanPrefixIdx p (pyReadlines content) with
    | none =>
      simp only [hs]
      refine ⟨_, rfl, overlay_ne_nil ?_⟩
      exact flatten_ne_nil_of_mem (List.mem_append_right _ (List.mem_singleton.mpr rfl))
        (by simp [str])
    | some i =>
      simp only [hs]
      cases hr : rowCount ((pyReadlines content).getD i []) with
      | none => simp only [hr]; exact ⟨content, rfl, hcontent⟩
      | some c =>
        simp only [hr]
        refine ⟨_, rfl, overlay_ne_nil ?_⟩
        refine flatten_ne_nil_of_mem (mem_set_self _ i _ (scanPrefixIdx_lt_length hs)) ?_
        simp

theorem log_missed_prompt_spec (log : Option Str) (prompt : Option Str) (hlog : logOK log) :
    (∃ c, (log_missed_prompt log prompt).1 = some c ∧ c ≠ []) ∧
    (prompt = none → (log_missed_prompt log prompt).2 = true) := by
  rcases hlog with rfl | ⟨c0, rfl, hc0⟩
  · have hr : log_missed_prompt none prompt = log_missed_prompt (some headerLine) prompt := rfl
    rw [hr]
    exact log_missed_prompt_content_spec headerLine prompt (by decide)
  · exact log_missed_prompt_content_spec c0 prompt hc0

theorem handle_user_input_cases (g : Game) (raw : Str) (shuf : List Str → List Str)
    (choose : Nat) :
    (handle_user_input g raw shuf choose).2 = g ∨
    (handle_user_input g raw shuf choose).2 =
      { g with error_text := incorrectMsg ++ pyLower (pyStrip raw) } ∨
    ∃ p, g.current_prompt = some p ∧
      (handle_user_input g raw shuf choose).2 = display_solutions
        { g with solved_prompts := g.solved_prompts + 1, total_prompts := g.total_prompts + 1 }
        (shuf (g.unique_words.filter (fun w => isSubstr p w))) choose := by
  by_cases hexit : pyLower (pyStrip raw) = str "exit"
  · left
    unfold handle_user_input
    simp [hexit]
  · by_cases hmem : pyLower (pyStrip raw) ∈ g.unique_words
    · cases hp : g.current_prompt with
      | none =>
        left
        unfold handle_user_input
        rw [if_neg hexit]
        have hc : g.unique_words.contains (pyLower (pyStrip raw)) = true := by
          simpa [List.elem_iff] using hmem
        simp only [hc, if_true, hp]
      | some p =>
        by_cases hsub : isSubstr p (pyLower (pyStrip raw)) = true
        · right; right
          refine ⟨p, rfl, ?_⟩
          rw [handle_accept_eq g p raw shuf choose hp hexit hmem hsub, hp]
        · right; left
          rw [handle_reject_eq g raw shuf choose hexit
            (Or.inr ⟨p, hp, Bool.eq_false_iff.mpr hsub⟩), hp]
    · right; left
      rw [handle_reject_eq g raw shuf choose hexit (Or.inl hmem)]

theorem skip_prompt_spec (g : Game) (log : Option Str) (shuf : List Str → List Str)
    (choose : Nat) (hlog : logOK log) :
    (∃ c, (skip_prompt g log shuf choose).2.2 = some c ∧ c ≠ []) ∧
    ((skip_prompt g log shuf choose).2.1 = g ∨
      ∃ p, g.current_prompt = some p ∧
        (skip_prompt g log shuf choose).2.1 =
          { display_solutions
              { g with skipped_prompts := g.skipped_prompts ++ [some p],
                       total_prompts := g.total_prompts + 1 }
              (shuf (g.unique_words.filter (fun w => isSubstr p w))) choose
            with error_text := [] }) := by
  obtain ⟨⟨c2, hc2, hc2ne⟩, hnone⟩ := log_missed_prompt_spec log g.current_prompt hlog
  cases hb : (log_missed_prompt log g.current_prompt).2
  · cases hp : g.current_prompt with
    | none =>
      rw [hnone hp] at hb
      simp at hb
    | some p =>
      have heq : log_missed_prompt log g.current_prompt = (some c2, false) := by
        rw [← hc2, ← hb]
      unfold skip_prompt
      rw [heq, hp]
      exact ⟨⟨c2, rfl, hc2ne⟩, Or.inr ⟨p, rfl, rfl⟩⟩
  · have heq : log_missed_prompt log g.current_prompt = (some c2, true) := by
      rw [← hc2, ← hb]
    unfold skip_prompt
    rw [heq]
    exact ⟨⟨c2, rfl, hc2ne⟩, Or.inl rfl⟩

theorem display_solutions_preserves (g : Game) (sols : List Str) (c : Nat) :
    (display_solutions g sols c).solved_prompts = g.solved_prompts ∧
    (display_solutions g sols c).total_prompts = g.total_prompts ∧
    (display_solutions g sols c).skipped_prompts = g.skipped_prompts ∧
    (display_solutions g sols c).missed_prompts = g.missed_prompts := by
  unfold display_solutions
  obtain ⟨p1, p2, p3, p4, -⟩ := show_prompt_preserves { g with solutions_box := sols.take 5 } c
  exact ⟨p1, p2, p3, p4⟩

theorem stepOp_missed_prompts (s : Sess) (op : Op) (hlog : logOK s.log) :
    (stepOp s op).game.missed_prompts = s.game.missed_prompts := by
  cases op with
  | submit raw shuf choose =>
    show (handle_user_input s.game raw shuf choose).2.missed_prompts = _
    rcases handle_user_input_cases s.game raw shuf choose with h | h | ⟨p, hp, h⟩
    · rw [h]
    · rw [h]
    · rw [h]
      exact (display_solutions_preserves _ _ _).2.2.2
  | skip shuf choose =>
    show (skip_prompt s.game s.log shuf choose).2.1.missed_prompts = _
    rcases (skip_prompt_spec s.game s.log shuf choose hlog).2 with h | ⟨p, hp, h⟩
    · rw [h]
    · rw [h]
      exact (display_solutions_preserves _ _ _).2.2.2
  | setMin v => rfl
  | setMax v => rfl
  | setMissedOnly b => rfl
  | newPrompt choose => exact (show_prompt_preserves s.game choose).2.2.2.1

theorem stepOp_logOK (s : Sess) (op : Op) (hlog : logOK s.log) : logOK (stepOp s op).log := by
  cases op with
  | submit raw shuf choose => exact hlog
  | skip shuf choose =>
    obtain ⟨c, hc, hcne⟩ := (skip_prompt_spec s.game s.log shuf choose hlog).1
    exact Or.inr ⟨c, hc, hcne⟩
  | setMin v => exact hlog
  | setMax v => exact hlog
  | setMissedOnly b => exact hlog
  | newPrompt choose => exact hlog

theorem handle_user_input_counts (g : Game) (raw : Str) (shuf : List Str → List Str)
    (choose : Nat)
    (h : g.total_prompts = g.solved_prompts + g.skipped_prompts.length) :
    (handle_user_input g raw shuf choose).2.total_prompts =
      (handle_user_input g raw shuf choose).2.solved_prompts +
        (handle_user_input g raw shuf choose).2.skipped_prompts.length := by
  rcases handle_user_input_cases g raw shuf choose with h1 | h1 | ⟨p, hp, h1⟩ <;> rw [h1]
  · exact h
  · exact h
  · obtain ⟨d1, d2, d3, -⟩ := display_solutions_preserves
      { g with solved_prompts := g.solved_prompts + 1,
               total_prompts := g.total_prompts + 1 }
      (shuf (g.unique_words.filter (fun w => isSubstr p w))) choose
    rw [d1, d2, d3]
    show g.total_prompts + 1 = g.solved_prompts + 1 + g.skipped_prompts.length
    omega

theorem skip_prompt_counts (g : Game) (log : Option Str) (shuf : List Str → List Str)
    (choose : Nat) (hlog : logOK log)
    (h : g.total_prompts = g.solved_prompts + g.skipped_prompts.length) :
    (skip_prompt g log shuf choose).2.1.total_prompts =
      (skip_prompt g log shuf choose).2.1.solved_prompts +
        (skip_prompt g log shuf choose).2.1.skipped_prompts.length := by
  rcases (skip_prompt_spec g log shuf choose hlog).2 with h1 | ⟨p, hp, h1⟩ <;> rw [h1]
  · exact h
  · obtain ⟨d1, d2, d3, -⟩ := display_solutions_preserves
      { g with skipped_prompts := g.skipped_prompts ++ [some p],
               total_prompts := g.total_prompts + 1 }
      (shuf (g.unique_words.filter (fun w => isSubstr p w))) choose
    show (display_solutions
        { g with skipped_prompts := g.skipped_prompts ++ [some p],
                 total_prompts := g.total_prompts + 1 }
        (shuf (g.unique_words.filter (fun w => isSubstr p w))) choose).total_prompts =
      (display_solutions
        { g with skipped_prompts := g.skipped_prompts ++ [some p],
                 total_prompts := g.total_prompts + 1 }
        (shuf (g.unique_words.filter (fun w => isSubstr p w))) choose).solved_prompts +
      (display_solutions
        { g with skipped_prompts := g.skipped_prompts ++ [some p],
                 total_prompts := g.total_prompts + 1 }
        (shuf (g.unique_words.filter (fun w => isSubstr p w))) choose).skipped_prompts.length
    rw [d1, d2, d3]
    show g.total_prompts + 1 =
      g.solved_prompts + (g.skipped_prompts ++ [some p]).length
    rw [List.length_append]
    simp only [List.length_singleton]
    omega

theorem stepOp_counts (s : Sess) (op : Op) (hlog : logOK s.log)
    (h : s.game.total_prompts = s.game.solved_prompts + s.game.skipped_prompts.length) :
    (stepOp s op).game.total_prompts =
      (stepOp s op).game.solved_prompts + (stepOp s op).game.skipped_prompts.length := by
  cases op with
  | submit raw shuf choose => exact handle_user_input_counts s.game raw shuf choose h
  | skip shuf choose => exact skip_prompt_counts s.game s.log shuf choose hlog h
  | setMin v => exact h
  | setMax v => exact h
  | setMissedOnly b => exact h
  | newPrompt choose =>
    obtain ⟨p1, p2, p3, -⟩ := show_prompt_preserves s.game choose
    show (show_prompt s.game choose).total_prompts =
      (show_prompt s.game choose).solved_prompts +
        (show_prompt s.game choose).skipped_prompts.length
    rw [p1, p2, p3]
    exact h

theorem runOps_ReachInv (ops : List Op) (s : Sess) (h : ReachInv s) :
    ReachInv (runOps s ops) := by
  induction ops generalizing s with
  | nil => exact h
  | cons op ops ih =>
    show ReachInv (runOps (stepOp s op) ops)
    exact ih _ ⟨stepOp_counts s op h.2 h.1, stepOp_logOK s op h.2⟩

theorem initSess_ReachInv (uw : List Str) (subs : List (Str × Nat)) (log : Option Str)
    (choose : Nat) (hlog : logOK log) : ReachInv (initSess uw subs log choose) := by
  refine ⟨?_, hlog⟩
  obtain ⟨p1, p2, p3, -⟩ := show_prompt_preserves
    { unique_words := uw, substrings := subs, skipped_prompts := [],
      missed_prompts := load_missed_prompts log, solved_prompts := 0, total_prompts := 0,
      current_prompt := none, error_text := [], solutions_box := [],
      min_entry := str "1", max_entry := str "1000", missed_only := false } choose
  show (show_prompt
      { unique_words := uw, substrings := subs, skipped_prompts := [],
        missed_prompts := load_missed_prompts log, solved_prompts := 0, total_prompts := 0,
        current_prompt := none, error_text := [], solutions_box := [],
        min_entry := str "1", max_entry := str "1000", missed_only := false } choose).total_prompts =
    (show_prompt
      { unique_words := uw, substrings := subs, skipped_prompts := [],
        missed_prompts := load_missed_prompts log, solved_prompts := 0, total_prompts := 0,
        current_prompt := none, error_text := [], solutions_box := [],
        min_entry := str "1", max_entry := str "1000", missed_only := false } choose).solved_prompts +
    (show_prompt
      { unique_words := uw, substrings := subs, skipped_prompts := [],
        missed_prompts := load_missed_prompts log, solved_prompts := 0, total_prompts := 0,
        current_prompt := none, error_text := [], solutions_box := [],
        min_entry := str "1", max_entry := str "1000",
        missed_only := false } choose).skipped_prompts.length
  rw [p1, p2, p3]
  rfl

/-- C9: in every session state reachable from startup (with the log file
absent or nonempty, as the program itself always leaves it), the total
attempt count equals the solved count plus the number of session skips, so
solved never exceeds total. -/
theorem C9_total_splits (uw : List Str) (subs : List (Str × Nat)) (log : Option Str)
    (choose : Nat) (ops : List Op) (hlog : logOK log) :
    (runOps (initSess uw subs log choose) ops).game.total_prompts =
      (runOps (initSess uw subs log choose) ops).game.solved_prompts +
        (runOps (initSess uw subs log choose) ops).game.skipped_prompts.length ∧
    (runOps (initSess uw subs log choose) ops).game.solved_prompts ≤
      (runOps (initSess uw subs log choose) ops).game.total_prompts := by
  have h := runOps_ReachInv ops _ (initSess_ReachInv uw subs log choose hlog)
  have h1 := h.1
  exact ⟨h1, by omega⟩

/-- Witness for C9: one skip then one accepted answer over the example
corpus without a log file. -/
theorem C9_total_splits_w :
    (runOps (initSess wWords wSubs none 0) [.skip id 0, .submit (str "apple") id 0]).game.total_prompts =
      (runOps (initSess wWords wSubs none 0)
          [.skip id 0, .submit (str "apple") id 0]).game.solved_prompts +
        (runOps (initSess wWords wSubs none 0)
          [.skip id 0, .submit (str "apple") id 0]).game.skipped_prompts.length ∧
    (runOps (initSess wWords wSubs none 0)
        [.skip id 0, .submit (str "apple") id 0]).game.solved_prompts ≤
      (runOps (initSess wWords wSubs none 0)
        [.skip id 0, .submit (str "apple") id 0]).game.total_prompts :=
  C9_total_splits wWords wSubs none 0 [.skip id 0, .submit (str "apple") id 0] (Or.inl rfl)

/-- C5: the missed-only candidate pool is the fragment list loaded from
the log at session start (the text before the first comma of each row
after the header, in file order); it is the same set as its first-occurrence
deduplication, and no session operation — in particular no skip — changes
it. -/
theorem C5_missed_pool_fixed (uw : List Str) (subs : List (Str × Nat)) (log : Option Str)
    (choose : Nat) (ops : List Op) (hlog : logOK log) :
    (runOps (initSess uw subs log choose) ops).game.missed_prompts =
      load_missed_prompts log ∧
    ((runOps (initSess uw subs log choose) ops).game.missed_only = true →
      candidate_substrings (runOps (initSess uw subs log choose) ops).game =
        (runOps (initSess uw subs log choose) ops).game.missed_prompts) ∧
    (∀ x, x ∈ load_missed_prompts log ↔ x ∈ (load_missed_prompts log).dedup) := by
  have hrun : ∀ (os : List Op) (s : Sess), logOK s.log →
      (runOps s os).game.missed_prompts = s.game.missed_prompts := by
    intro os
    induction os with
    | nil => intro s _; rfl
    | cons op os ih =>
      intro s hs
      show (runOps (stepOp s op) os).game.missed_prompts = _
      rw [ih _ (stepOp_logOK s op hs), stepOp_missed_prompts s op hs]
  refine ⟨?_, ?_, fun x => (List.mem_dedup).symm⟩
  · rw [hrun ops _ hlog]
    exact (show_prompt_preserves _ choose).2.2.2.1
  · intro hm
    unfold candidate_substrings
    rw [if_pos hm]

/-- Witness for C5: a session loaded with a one-row log, after a skip. -/
theorem C5_missed_pool_fixed_w :
    (runOps (initSess (process_words [str "apple"]).1 (process_words [str "apple"]).2
        (some (str "Prompt,Missed Count\nzzz,1\n")) 0) [.skip id 0]).game.missed_prompts =
      load_missed_prompts (some (str "Prompt,Missed Count\nzzz,1\n")) ∧
    ((runOps (initSess (process_words [str "apple"]).1 (process_words [str "apple"]).2
        (some (str "Prompt,Missed Count\nzzz,1\n")) 0) [.skip id 0]).game.missed_only = true →
      candidate_substrings (runOps (initSess (process_words [str "apple"]).1
          (process_words [str "apple"]).2
          (some (str "Prompt,Missed Count\nzzz,1\n")) 0) [.skip id 0]).game =
        (runOps (initSess (process_words [str "apple"]).1 (process_words [str "apple"]).2
          (some (str "Prompt,Missed Count\nzzz,1\n")) 0) [.skip id 0]).game.missed_prompts) ∧
    (∀ x, x ∈ load_missed_prompts (some (str "Prompt,Missed Count\nzzz,1\n")) ↔
      x ∈ (load_missed_prompts (some (str "Prompt,Missed Count\nzzz,1\n"))).dedup) :=
  C5_missed_pool_fixed (process_words [str "apple"]).1 (process_words [str "apple"]).2
    (some (str "Prompt,Missed Count\nzzz,1\n")) 0 [.skip id 0]
    (Or.inr ⟨_, rfl, by decide⟩)

theorem decDigitsAux_congr : ∀ f1 f2 n : Nat, n < f1 → n < f2 →
    decDigitsAux f1 n = decDigitsAux f2 n := by
  intro f1
  induction f1 with
  | zero => intro f2 n h _; exact absurd h (Nat.not_lt_zero n)
  | succ f1 ih =>
    intro f2 n h1 h2
    cases f2 with
    | zero => exact absurd h2 (Nat.not_lt_zero n)
    | succ f2 =>
      unfold decDigitsAux
      by_cases h : n < 10
      · simp [h]
      · rw [if_neg h, if_neg h]
        have hdiv : n / 10 < n := Nat.div_lt_self (by omega) (by omega)
        congr 1
        exact ih f2 (n / 10) (by omega) (by omega)

theorem decDigits_eq (n : Nat) : decDigits n =
    if n < 10 then [Nat.digitChar n] else decDigits (n / 10) ++ [Nat.digitChar (n % 10)] := by
  unfold decDigits
  simp only [decDigitsAux]
  by_cases h : n < 10
  · simp [h]
  · rw [if_neg h, if_neg h]
    have hdiv : n / 10 < n := Nat.div_lt_self (by omega) (by omega)
    congr 1
    exact decDigitsAux_congr n (n / 10 + 1) (n / 10) (by omega) (by omega)

theorem digitChar_props (k : Nat) (h : k < 10) :
    (Nat.digitChar k).isDigit = true ∧ Nat.digitChar k ≠ ',' ∧ Nat.digitChar k ≠ '\n' ∧
    (Nat.digitChar k).isWhitespace = false ∧ Nat.digitChar k ≠ '-' ∧ Nat.digitChar k ≠ '+' := by
  interval_cases k <;> decide

theorem digitChar_toNat (k : Nat) (h : k < 10) :
    (Nat.digitChar k).toNat - '0'.toNat = k := by
  interval_cases k <;> decide

theorem decDigits_ne_nil (n : Nat) : decDigits n ≠ [] := by
  rw [decDigits_eq]
  by_cases h : n < 10 <;> simp [h]

theorem decDigits_chars (n : Nat) : ∀ c ∈ decDigits n, ∃ k, k < 10 ∧ c = Nat.digitChar k := by
  induction n using Nat.strong_induction_on with
  | _ n ih =>
    rw [decDigits_eq]
    by_cases h : n < 10
    · rw [if_pos h]
      intro c hc
      rw [List.mem_singleton] at hc
      exact ⟨n, h, hc⟩
    · rw [if_neg h]
      intro c hc
      rcases List.mem_append.mp hc with hc | hc
      · exact ih (n / 10) (Nat.div_lt_self (by omega) (by omega)) c hc
      · rw [List.mem_singleton] at hc
        exact ⟨n % 10, Nat.mod_lt _ (by omega), hc⟩

theorem decDigits_length_mono : ∀ m n : Nat, n ≤ m →
    (decDigits n).length ≤ (decDigits m).length := by
  intro m
  induction m using Nat.strong_induction_on with
  | _ m ih =>
    intro n hnm
    by_cases hm : m < 10
    · have hn : n < 10 := by omega
      rw [decDigits_eq n, decDigits_eq m, if_pos hn, if_pos hm]
      simp
    · by_cases hn : n < 10
      · rw [decDigits_eq n, decDigits_eq m, if_pos hn, if_neg hm]
        simp only [List.length_append, List.length_singleton]
        omega
      · rw [decDigits_eq n, decDigits_eq m, if_neg hn, if_neg hm]
        simp only [List.length_append, List.length_singleton]
        have hd : (decDigits (n / 10)).length ≤ (decDigits (m / 10)).length :=
          ih (m / 10) (Nat.div_lt_self (by omega) (by omega)) (n / 10)
            (Nat.div_le_div_right hnm)
        omega

theorem decDigits_foldl (n : Nat) : ∀ a : Nat,
    (decDigits n).foldl (fun x c => x * 10 + (c.toNat - '0'.toNat)) a =
      a * 10 ^ (decDigits n).length + n := by
  induction n using Nat.strong_induction_on with
  | _ n ih =>
    intro a
    by_cases h : n < 10
    · rw [decDigits_eq, if_pos h]
      simp only [List.foldl_cons, List.foldl_nil, List.length_singleton, pow_one]
      rw [digitChar_toNat n h]
    · rw [decDigits_eq, if_neg h]
      rw [List.foldl_append]
      rw [ih (n / 10) (Nat.div_lt_self (by omega) (by omega)) a]
      simp only [List.foldl_cons, List.foldl_nil, List.length_append, List.length_singleton]
      rw [digitChar_toNat (n % 10) (Nat.mod_lt _ (by omega))]
      rw [pow_succ, Nat.add_mul]
      have hmod : 10 * (n / 10) + n % 10 = n := Nat.div_add_mod n 10
      have hassoc : a * 10 ^ (decDigits (n / 10)).length * 10 =
          a * (10 ^ (decDigits (n / 10)).length * 10) := by
        rw [Nat.mul_assoc]
      omega

theorem digitsVal_decDigits (n : Nat) : digitsVal (decDigits n) = some n := by
  have hall : ((decDigits n).all (fun c => c.isDigit)) = true := by
    rw [List.all_eq_true]
    intro c hc
    obtain ⟨k, hk, rfl⟩ := decDigits_chars n c hc
    exact (digitChar_props k hk).1
  unfold digitsVal
  rw [if_pos ⟨decDigits_ne_nil n, hall⟩]
  rw [decDigits_foldl n 0]
  simp

theorem decDigits_not_ws (n : Nat) : ∀ c ∈ decDigits n, c.isWhitespace = false := by
  intro c hc
  obtain ⟨k, hk, rfl⟩ := decDigits_chars n c hc
  exact (digitChar_props k hk).2.2.2.1

theorem decDigits_no_comma (n : Nat) : ∀ c ∈ decDigits n, c ≠ ',' := by
  intro c hc
  obtain ⟨k, hk, rfl⟩ := decDigits_chars n c hc
  exact (digitChar_props k hk).2.1

theorem decDigits_no_newline (n : Nat) : ∀ c ∈ decDigits n, c ≠ '\n' := by
  intro c hc
  obtain ⟨k, hk, rfl⟩ := decDigits_chars n c hc
  exact (digitChar_props k hk).2.2.1

theorem dropWhile_ws_eq_self {s : Str} (h : ∀ c ∈ s, c.isWhitespace = false) :
    s.dropWhile Char.isWhitespace = s := by
  cases s with
  | nil => rfl
  | cons a rest =>
    rw [List.dropWhile_cons_of_neg]
    simp [h a (List.mem_cons_self a rest)]

theorem pyStrip_eq_self {s : Str} (h : ∀ c ∈ s, c.isWhitespace = false) : pyStrip s = s := by
  unfold pyStrip
  rw [dropWhile_ws_eq_self h,
    dropWhile_ws_eq_self (fun c hc => h c (List.mem_reverse.mp hc)), List.reverse_reverse]

theorem pyStrip_body_newline {body : Str} (hb : body ≠ [])
    (h : ∀ c ∈ body, c.isWhitespace = false) : pyStrip (body ++ ['\n']) = body := by
  unfold pyStrip
  have h1 : (body ++ ['\n']).dropWhile Char.isWhitespace = body ++ ['\n'] := by
    cases body with
    | nil => exact absurd rfl hb
    | cons a rest =>
      rw [List.cons_append, List.dropWhile_cons_of_neg]
      simp [h a (List.mem_cons_self a rest)]
  rw [h1, List.reverse_append]
  show (('\n' :: body.reverse).dropWhile Char.isWhitespace).reverse = body
  rw [List.dropWhile_cons_of_pos (by decide),
    dropWhile_ws_eq_self (fun c hc => h c (List.mem_reverse.mp hc)), List.reverse_reverse]

theorem pySplitAux_no_sep (sep : Char) : ∀ (x acc : Str), (∀ c ∈ x, c ≠ sep) →
    pySplitAux sep acc x = [acc.reverse ++ x] := by
  intro x
  induction x with
  | nil => intro acc _; simp [pySplitAux]
  | cons c rest ih =>
    intro acc h
    unfold pySplitAux
    rw [if_neg (h c (List.mem_cons_self c rest))]
    rw [ih (c :: acc) (fun d hd => h d (List.mem_cons.mpr (Or.inr hd)))]
    simp

theorem pySplitAux_sep (sep : Char) : ∀ (x acc rest : Str), (∀ c ∈ x, c ≠ sep) →
    pySplitAux sep acc (x ++ sep :: rest) = (acc.reverse ++ x) :: pySplitAux sep [] rest := by
  intro x
  induction x with
  | nil =>
    intro acc rest _
    simp only [List.nil_append]
    conv_lhs => rw [pySplitAux]
    rw [if_pos rfl]
    simp
  | cons c x ih =>
    intro acc rest h
    rw [List.cons_append]
    conv_lhs => rw [pySplitAux]
    rw [if_neg (h c (List.mem_cons_self c x))]
    rw [ih (c :: acc) rest (fun d hd => h d (List.mem_cons.mpr (Or.inr hd)))]
    simp

theorem pySplit_pair {f digits : Str} (hf : ∀ c ∈ f, c ≠ ',') (hd : ∀ c ∈ digits, c ≠ ',') :
    pySplit ',' (f ++ ',' :: digits) = [f, digits] := by
  unfold pySplit
  rw [pySplitAux_sep ',' f [] digits hf]
  rw [pySplitAux_no_sep ',' digits [] hd]
  simp

theorem parsePyInt_decDigits (n : Nat) : parsePyInt (decDigits n) = some (n : Int) := by
  unfold parsePyInt
  rw [pyStrip_eq_self (decDigits_not_ws n)]
  cases hdd : decDigits n with
  | nil => exact absurd hdd (decDigits_ne_nil n)
  | cons d rest =>
    have hdmem : d ∈ decDigits n := by rw [hdd]; exact List.mem_cons_self d rest
    obtain ⟨k, hk, hdk⟩ := decDigits_chars n d hdmem
    split
    · rename_i ds heq
      injection heq with h1 _
      rw [hdk] at h1
      exact absurd h1 (digitChar_props k hk).2.2.2.2.1
    · rename_i ds heq
      injection heq with h1 _
      rw [hdk] at h1
      exact absurd h1 (digitChar_props k hk).2.2.2.2.2
    · rename_i heq
      rw [← hdd, digitsVal_decDigits n]
      rfl

theorem rowCount_rowOf (f : Str) (n : Nat) (hwf : WFfrag f) :
    rowCount (rowOf f n) = some (n : Int) := by
  unfold rowCount rowOf
  have hassoc : f ++ [','] ++ decDigits n ++ ['\n'] =
      (f ++ [','] ++ decDigits n) ++ ['\n'] := by simp
  rw [hassoc, pyStrip_body_newline (by simp) ?hws]
  case hws =>
    intro c hc
    rcases List.mem_append.mp hc with hc | hc
    · rcases List.mem_append.mp hc with hc | hc
      · exact hwf.2.2.2 c hc
      · rw [List.mem_singleton] at hc; subst hc; decide
    · exact decDigits_not_ws n c hc
  have hcons : f ++ [','] ++ decDigits n = f ++ ',' :: decDigits n := by simp
  rw [hcons, pySplit_pair hwf.2.1 (decDigits_no_comma n)]
  exact parsePyInt_decDigits n

theorem readlinesAux_line (body rest : Str) : ∀ acc : Str, (∀ ch ∈ body, ch ≠ '\n') →
    readlinesAux acc (body ++ '\n' :: rest) =
      (acc.reverse ++ body ++ ['\n']) :: readlinesAux [] rest := by
  induction body with
  | nil =>
    intro acc _
    simp only [List.nil_append]
    conv_lhs => rw [readlinesAux]
    rw [if_pos rfl]
    simp
  | cons c body ih =>
    intro acc h
    rw [List.cons_append]
    conv_lhs => rw [readlinesAux]
    rw [if_neg (h c (List.mem_cons_self c body))]
    rw [ih (c :: acc) (fun d hd => h d (List.mem_cons.mpr (Or.inr hd)))]
    simp

theorem pyReadlines_flatten : ∀ lines : List Str,
    (∀ l ∈ lines, ∃ body, l = body ++ ['\n'] ∧ ∀ ch ∈ body, ch ≠ '\n') →
    pyReadlines lines.flatten = lines := by
  intro lines
  induction lines with
  | nil => intro _; rfl
  | cons l ls ih =>
    intro h
    obtain ⟨body, hl, hb⟩ := h l (List.mem_cons_self l ls)
    rw [hl, List.flatten_cons]
    unfold pyReadlines
    rw [show (body ++ ['\n']) ++ ls.flatten = body ++ '\n' :: ls.flatten by simp]
    rw [readlinesAux_line body ls.flatten [] hb]
    simp only [List.reverse_nil, List.nil_append]
    congr 1
    exact ih (fun l' hl' => h l' (List.mem_cons.mpr (Or.inr hl')))

theorem rowOf_body (f : Str) (n : Nat) (hwf : WFfrag f) :
    ∃ body, rowOf f n = body ++ ['\n'] ∧ ∀ ch ∈ body, ch ≠ '\n' := by
  refine ⟨f ++ [','] ++ decDigits n, by simp [rowOf], ?_⟩
  intro ch hc
  rcases List.mem_append.mp hc with hc | hc
  · rcases List.mem_append.mp hc with hc | hc
    · exact hwf.2.2.1 ch hc
    · rw [List.mem_singleton] at hc; subst hc; decide
  · exact decDigits_no_newline n ch hc

theorem pyReadlines_mkLog (rows : List (Str × Nat)) (h : ∀ r ∈ rows, WFfrag r.1) :
    pyReadlines (mkLog rows) = headerLine :: rows.map (fun r => rowOf r.1 r.2) := by
  have hflat : mkLog rows = (headerLine :: rows.map (fun r => rowOf r.1 r.2)).flatten := by
    simp [mkLog, List.flatten_cons]
  rw [hflat, pyReadlines_flatten]
  intro l hl
  rcases List.mem_cons.mp hl with rfl | hl
  · exact ⟨str "Prompt,Missed Count", by decide, by decide⟩
  · obtain ⟨r, hr, hrf⟩ := List.mem_map.mp hl
    rw [← hrf]
    exact rowOf_body r.1 r.2 (h r hr)

theorem isPrefixOf_append_iff_eq {p f rest : Str} (hpf : p.length = f.length) :
    p.isPrefixOf (f ++ rest) = true ↔ p = f := by
  rw [ List.isPrefixOf_iff_prefix]
  constructor
  · intro hpre
    obtain ⟨t, ht⟩ := hpre
    have htake : (p ++ t).take p.length = (f ++ rest).take p.length := by rw [ht]
    rw [List.take_left, hpf, List.take_left] at htake
    exact htake
  · rintro rfl
    exact List.prefix_append p rest

theorem fragIdx_eq_none_iff (p : Str) (rows : List (Str × Nat)) :
    fragIdx p rows = none ↔ p ∉ rows.map Prod.fst := by
  induction rows with
  | nil => simp [fragIdx]
  | cons r rs ih =>
    by_cases h : r.1 = p
    · simp [fragIdx, h]
    · simp [fragIdx, h, ih, Ne.symm h]

theorem fragIdx_spec (p : Str) : ∀ (rows : List (Str × Nat)) (i : Nat),
    fragIdx p rows = some i → i < rows.length ∧ (rows.getD i ([], 0)).1 = p := by
  intro rows
  induction rows with
  | nil => intro i h; simp [fragIdx] at h
  | cons r rs ih =>
    intro i h
    unfold fragIdx at h
    by_cases hr : r.1 = p
    · rw [if_pos hr] at h
      injection h with h
      subst h
      exact ⟨by simp, by simpa using hr⟩
    · rw [if_neg hr] at h
      cases hf : fragIdx p rs with
      | none => rw [hf] at h; simp at h
      | some j =>
        rw [hf] at h
        have hj : j + 1 = i := by simpa using h
        obtain ⟨hj1, hj2⟩ := ih j hf
        subst hj
        exact ⟨by simp; omega, by simpa using hj2⟩

theorem scanPrefixIdx_rows (p : Str) : ∀ rows : List (Str × Nat), p.length = 3 →
    (∀ r ∈ rows, r.1.length = 3) →
    scanPrefixIdx p (rows.map (fun r => rowOf r.1 r.2)) = fragIdx p rows := by
  intro rows
  induction rows with
  | nil => intro _ _; rfl
  | cons r rs ih =>
    intro hp3 hlen
    simp only [List.map_cons]
    have hrow : p.isPrefixOf (rowOf r.1 r.2) = true ↔ p = r.1 := by
      have hsplit : rowOf r.1 r.2 = r.1 ++ ([','] ++ decDigits r.2 ++ ['\n']) := by
        simp [rowOf]
      rw [hsplit]
      exact isPrefixOf_append_iff_eq (by rw [hp3, hlen r (List.mem_cons_self r rs)])
    conv_lhs => rw [scanPrefixIdx]
    conv_rhs => rw [fragIdx]
    by_cases h : p = r.1
    · rw [if_pos (hrow.mpr h), if_pos h.symm]
    · rw [if_neg (fun hc => h (hrow.mp hc)), if_neg (fun hc => h hc.symm)]
      rw [ih hp3 (fun r' hr' => hlen r' (List.mem_cons.mpr (Or.inr hr')))]

theorem scanPrefixIdx_mkLog (p : Str) (rows : List (Str × Nat))
    (hp3 : p.length = 3)
    (hph : p.isPrefixOf headerLine = false)
    (hlen : ∀ r ∈ rows, r.1.length = 3) :
    scanPrefixIdx p (headerLine :: rows.map (fun r => rowOf r.1 r.2)) =
      (fragIdx p rows).map (fun i => i + 1) := by
  conv_lhs => rw [scanPrefixIdx]
  rw [if_neg (by simp [hph]), scanPrefixIdx_rows p rows hp3 hlen]

theorem overlay_eq_of_le {newC oldC : Str} (h : oldC.length ≤ newC.length) :
    overlay newC oldC = newC := by
  rw [overlay, List.drop_eq_nil_of_le h, List.append_nil]

theorem flatten_length_set_ge (lines : List Str) : ∀ (i : Nat) (row : Str),
    (lines.getD i []).length ≤ row.length →
    lines.flatten.length ≤ ((lines.set i row).flatten).length := by
  induction lines with
  | nil => intro i row _; simp
  | cons a ls ih =>
    intro i row h
    cases i with
    | zero =>
      simp only [List.set, List.flatten_cons, List.length_append]
      have ha : a.length ≤ row.length := by simpa using h
      omega
    | succ j =>
      simp only [List.set, List.flatten_cons, List.length_append]
      have := ih j row (by simpa using h)
      omega

theorem getD_map_rowOf (rows : List (Str × Nat)) : ∀ i : Nat, i < rows.length →
    (rows.map (fun r => rowOf r.1 r.2)).getD i [] =
      rowOf (rows.getD i ([], 0)).1 (rows.getD i ([], 0)).2 := by
  induction rows with
  | nil => intro i h; simp at h
  | cons r rs ih =>
    intro i h
    cases i with
    | zero => simp
    | succ j =>
      simp only [List.map_cons, List.getD_cons_succ]
      exact ih j (by simpa using h)

theorem set_map_rowOf (rows : List (Str × Nat)) : ∀ (i : Nat) (q : Str) (m : Nat),
    (rows.map (fun r => rowOf r.1 r.2)).set i (rowOf q m) =
      (rows.set i (q, m)).map (fun r => rowOf r.1 r.2) := by
  induction rows with
  | nil => intro i q m; simp
  | cons r rs ih =>
    intro i q m
    cases i with
    | zero => simp
    | succ j =>
      simp only [List.map_cons, List.set]
      rw [ih j q m]

theorem intToStr_natCast (m : Nat) : intToStr ((m : Nat) : Int) = decDigits m := by
  unfold intToStr
  rw [if_neg (by simp)]
  simp

/-- C4: skipping a fragment with no row in the missed-prompt log appends a
row with miss-count 1 (creating the header first when the file is absent),
and skipping a fragment that already has a row rewrites exactly that row in
place with its count incremented by 1 — the same whether the row was
written in this run or an earlier one, since the file is re-read on every
skip. -/
theorem C4_log_update (rows : List (Str × Nat)) (p : Str)
    (hrows : ∀ r ∈ rows, WFfrag r.1)
    (hp : WFfrag p)
    (hph : p.isPrefixOf headerLine = false) :
    log_missed_prompt none (some p) = (some (mkLog [(p, 1)]), false) ∧
    (p ∉ rows.map Prod.fst →
      log_missed_prompt (some (mkLog rows)) (some p) =
        (some (mkLog (rows ++ [(p, 1)])), false)) ∧
    (∀ i, fragIdx p rows = some i →
      log_missed_prompt (some (mkLog rows)) (some p) =
        (some (mkLog (rows.set i (p, (rows.getD i ([], 0)).2 + 1))), false)) := by
  have hs1 : str ",1\n" = [',', '1', '\n'] := by decide
  have hd1 : decDigits 1 = ['1'] := by decide
  have hrow1 : p ++ str ",1\n" = rowOf p 1 := by
    rw [hs1]
    unfold rowOf
    rw [hd1]
    simp
  have hlines := pyReadlines_mkLog rows hrows
  have hscan := scanPrefixIdx_mkLog p rows hp.1 hph (fun r hr => (hrows r hr).1)
  refine ⟨?_, ?_, ?_⟩
  · have h0 : pyReadlines headerLine = [headerLine] := by decide
    have hscan0 : scanPrefixIdx p [headerLine] = none := by
      unfold scanPrefixIdx
      rw [if_neg (by simp [hph])]
      rfl
    unfold log_missed_prompt
    simp only [h0, hscan0]
    have hfl : ([headerLine] ++ [p ++ str ",1\n"]).flatten = headerLine ++ rowOf p 1 := by
      simp [hrow1]
    rw [hfl, overlay_eq_of_le (by simp)]
    rw [show mkLog [(p, 1)] = headerLine ++ rowOf p 1 by simp [mkLog]]
  · intro hnotin
    have hfi : fragIdx p rows = none := (fragIdx_eq_none_iff p rows).mpr hnotin
    unfold log_missed_prompt
    simp only [hlines, hscan, hfi, Option.map_none']
    have hfl2 : ((headerLine :: rows.map (fun r => rowOf r.1 r.2)) ++
        [p ++ str ",1\n"]).flatten = mkLog rows ++ rowOf p 1 := by
      rw [hrow1]
      simp [mkLog, List.flatten_append, List.flatten_cons]
    rw [hfl2, overlay_eq_of_le (by simp)]
    rw [show mkLog (rows ++ [(p, 1)]) = mkLog rows ++ rowOf p 1 by
      simp [mkLog, List.map_append, List.flatten_append]]
  · intro i hfi
    obtain ⟨hilen, hieq⟩ := fragIdx_spec p rows i hfi
    have hgetD : (headerLine :: rows.map (fun r => rowOf r.1 r.2)).getD (i + 1) [] =
        rowOf p ((rows.getD i ([], 0)).2) := by
      rw [List.getD_cons_succ, getD_map_rowOf rows i hilen, hieq]
    have hrc : rowCount ((headerLine :: rows.map (fun r => rowOf r.1 r.2)).getD (i + 1) []) =
        some (((rows.getD i ([], 0)).2 : Nat) : Int) := by
      rw [hgetD]
      exact rowCount_rowOf p _ hp
    unfold log_missed_prompt
    simp only [hlines, hscan, hfi, Option.map_some']
    simp only [hrc]
    have hint : (((rows.getD i ([], 0)).2 : Nat) : Int) + 1 =
        (((rows.getD i ([], 0)).2 + 1 : Nat) : Int) := by push_cast; ring
    have hnew : p ++ [','] ++ intToStr ((((rows.getD i ([], 0)).2 : Nat) : Int) + 1) ++ ['\n'] =
        rowOf p ((rows.getD i ([], 0)).2 + 1) := by
      rw [hint, intToStr_natCast]
      rfl
    rw [hnew]
    have hset : (headerLine :: rows.map (fun r => rowOf r.1 r.2)).set (i + 1)
        (rowOf p ((rows.getD i ([], 0)).2 + 1)) =
        headerLine :: (rows.set i (p, (rows.getD i ([], 0)).2 + 1)).map
          (fun r => rowOf r.1 r.2) := by
      simp only [List.set]
      rw [set_map_rowOf rows i p ((rows.getD i ([], 0)).2 + 1)]
    rw [hset]
    have hold : mkLog rows = (headerLine :: rows.map (fun r => rowOf r.1 r.2)).flatten := by
      simp [mkLog]
    have hle : (mkLog rows).length ≤
        ((headerLine :: (rows.set i (p, (rows.getD i ([], 0)).2 + 1)).map
          (fun r => rowOf r.1 r.2)).flatten).length := by
      rw [hold, ← hset]
      apply flatten_length_set_ge
      rw [hgetD]
      simp only [rowOf, List.length_append]
      have hm := decDigits_length_mono ((rows.getD i ([], 0)).2 + 1)
        ((rows.getD i ([], 0)).2) (by omega)
      omega
    rw [overlay_eq_of_le hle]
    rw [show mkLog (rows.set i (p, (rows.getD i ([], 0)).2 + 1)) =
        (headerLine :: (rows.set i (p, (rows.getD i ([], 0)).2 + 1)).map
          (fun r => rowOf r.1 r.2)).flatten by simp [mkLog]]

/-- Witness for C4: first skip of "abc" creates the row with count 1, the
second skip rewrites it to count 2. -/
theorem C4_log_update_w :
    log_missed_prompt none (some (str "abc")) = (some (mkLog [(str "abc", 1)]), false) ∧
    log_missed_prompt (some (mkLog [(str "abc", 1)])) (some (str "abc")) =
      (some (mkLog [(str "abc", 2)]), false) := by
  have h := C4_log_update [(str "abc", 1)] (str "abc") (by decide) (by decide) (by decide)
  refine ⟨h.1, ?_⟩
  have h2 := h.2.2 0 (by decide)
  exact h2

end FSS
